import Mathlib

/-!
Shallow embedding of the `indt` crate (src/src/lib.rs): an indenting writer
`Indent` wrapping an `io::Write` sink.

Bytes are modelled as `Nat` (values 0..255), the indent symbol as `Char`
(emitted through its UTF-8 encoding, as Rust's `write!("{}", ch)` does),
and `u8` fields as `Nat` with well-formedness bounds `≤ 255` carried as
hypotheses where the claims need them.  The sink is a state machine whose
`write` returns the new sink state together with `Except` of an error code
or the number of bytes accepted, mirroring `io::Write`.
-/

/-- A byte of the output stream. -/
abbrev Byte := Nat

/-- UTF-8 encoding of a character, as the byte list Rust emits for
`write!("{}", c)`. -/
def encodeChar (c : Char) : List Byte :=
  (String.utf8EncodeChar c).map (fun b => b.toNat)

/-- The pure state of the `Indent` struct (src/src/lib.rs, lines 34-40),
without the borrowed `output` sink, which is threaded separately. -/
structure IndentState where
  indent_step : Nat
  indent_symbol : Char
  current_indent : Nat
  first_line : Bool
  deriving Repr, DecidableEq

/-- `Indent::new` (lib.rs lines 94-102): depth 0, flag set. -/
def Indent.new (indent_step : Nat) (indent_symbol : Char) : IndentState :=
  { indent_step := indent_step
    indent_symbol := indent_symbol
    current_indent := 0
    first_line := true }

/-- `Indent::from_writer` (lib.rs lines 66-68): `new` with step 4, space. -/
def Indent.fromWriter : IndentState :=
  Indent.new 4 ' '

/-- `Indent::more` (lib.rs lines 124-129): the sum is taken in `u16`
(both operands are `u8`, so no overflow) and clamped by `cmp::min` to
`u8::MAX = 255` before narrowing back, which on `Nat` is exactly
`min (d + s) 255`. -/
def IndentState.more (st : IndentState) : IndentState :=
  { st with current_indent := min (st.current_indent + st.indent_step) 255 }

/-- `Indent::less` (lib.rs lines 151-156): the difference is taken in `i16`
(no overflow for `u8` operands) and clamped by `cmp::max` to
`u8::MIN = 0` before narrowing back. -/
def IndentState.less (st : IndentState) : IndentState :=
  { st with current_indent := (max ((st.current_indent : Int) - st.indent_step) 0).toNat }

/-- A sink: Rust's `dyn io::Write` collaborator.  `write` and `flush`
return the updated sink state plus either an error code or the count of
bytes accepted. -/
structure Sink (σ : Type) where
  write : σ → List Byte → σ × Except Nat Nat
  flush : σ → σ × Except Nat Unit

/-- The fully-accepting sink: its state is the trace of bytes received;
every `write` appends the whole slice and reports its length. -/
def totalSink : Sink (List Byte) :=
  { write := fun tr bs => (tr ++ bs, Except.ok bs.length)
    flush := fun tr => (tr, Except.ok ()) }

/-- A failing sink: its state is the trace received so far plus a budget of
remaining calls.  While the budget is positive each call (write or flush)
succeeds and decrements it; once exhausted, every call fails with the fixed
error code `ε` and changes nothing. -/
def budgetSink (ε : Nat) : Sink (List Byte × Nat) :=
  { write := fun s bs =>
      match s with
      | (tr, 0) => ((tr, 0), Except.error ε)
      | (tr, Nat.succ k) => ((tr ++ bs, k), Except.ok bs.length)
    flush := fun s =>
      match s with
      | (tr, 0) => ((tr, 0), Except.error ε)
      | (tr, Nat.succ k) => ((tr, k), Except.ok ()) }

/-- `Indent::write_indent` (lib.rs lines 159-165): the loop
`for _ in 0..current_indent { write!(output, "{}", symbol)? }`, emitting
the symbol's bytes once per iteration and propagating the first sink
failure. -/
def writeIndentLoop {σ : Type} (sk : Sink σ) (c : Char) : Nat → σ → σ × Except Nat Unit
  | 0, s => (s, Except.ok ())
  | Nat.succ n, s =>
    match sk.write s (encodeChar c) with
    | (s', Except.ok _) => writeIndentLoop sk c n s'
    | (s', Except.error e) => (s', Except.error e)

/-- Rust's `slice::split(|x| *x == b'\n')` (lib.rs line 175): the list of
segments between newline bytes.  An empty slice yields one empty segment;
each separator byte contributes a boundary. -/
def splitNl : List Byte → List (List Byte)
  | [] => [[]]
  | b :: rest =>
    if b = 10 then [] :: splitNl rest
    else
      match splitNl rest with
      | seg :: segs => (b :: seg) :: segs
      | [] => [[b]]

/-- The `for line in splitted` loop of `Indent::write` (lib.rs lines
181-190): for each further segment emit a newline, then for a non-empty
segment emit the indent and the segment (counting only the segment and the
newline into `printed`), and for an empty one set `first_line`.  Any sink
failure returns immediately. -/
def writeSegs {σ : Type} (sk : Sink σ) :
    List (List Byte) → IndentState → σ → Nat → IndentState × σ × Except Nat Nat
  | [], st, s0, printed => (st, s0, Except.ok printed)
  | line :: rest, st, s0, printed =>
    match sk.write s0 [10] with
    | (s1, Except.error e) => (st, s1, Except.error e)
    | (s1, Except.ok n1) =>
      if line.isEmpty then
        writeSegs sk rest { st with first_line := true } s1 (printed + n1)
      else
        match writeIndentLoop sk st.indent_symbol st.current_indent s1 with
        | (s2, Except.error e) => (st, s2, Except.error e)
        | (s2, Except.ok _) =>
          match sk.write s2 line with
          | (s3, Except.error e) => (st, s3, Except.error e)
          | (s3, Except.ok n2) => writeSegs sk rest st s3 (printed + n1 + n2)

/-- `<Indent as io::Write>::write` (lib.rs lines 169-194): emit the pending
indent when `first_line` is set (clearing the flag only on success), split
the input on `b'\n'`, write the first segment, then run the segment loop. -/
def Indent.write {σ : Type} (sk : Sink σ) (st : IndentState) (s0 : σ) (s : List Byte) :
    IndentState × σ × Except Nat Nat :=
  match
    (if st.first_line then
      match writeIndentLoop sk st.indent_symbol st.current_indent s0 with
      | (s1, Except.error e) => Except.error (st, s1, e)
      | (s1, Except.ok _) => Except.ok ({ st with first_line := false }, s1)
    else Except.ok (st, s0)) with
  | Except.error (st', s1, e) => (st', s1, Except.error e)
  | Except.ok (st1, s1) =>
    match splitNl s with
    | [] => (st1, s1, Except.ok 0)
    | first :: rest =>
      match sk.write s1 first with
      | (s2, Except.error e) => (st1, s2, Except.error e)
      | (s2, Except.ok n0) => writeSegs sk rest st1 s2 n0

/-- `<Indent as io::Write>::flush` (lib.rs lines 196-198): forwards to the
sink's flush. -/
def Indent.flush {σ : Type} (sk : Sink σ) (s0 : σ) : σ × Except Nat Unit :=
  sk.flush s0

/-- Running `write` against the fully-accepting sink from an empty trace:
the observable behaviour when the underlying sink accepts every byte. -/
def runWrite (st : IndentState) (s : List Byte) : IndentState × List Byte × Except Nat Nat :=
  Indent.write totalSink st [] s

/-- The indentation emitted for a state: `current_indent` copies of the
symbol's encoding. -/
def indentBytes (st : IndentState) : List Byte :=
  (List.replicate st.current_indent (encodeChar st.indent_symbol)).flatten

/-- What the segment loop adds to `printed`: one newline byte per segment
plus the segment's own length (indentation is never counted). -/
def segsCost (segs : List (List Byte)) : Nat :=
  (segs.map (fun l => l.length + 1)).sum

/-- The value of `first_line` after the segment loop: each empty segment
sets it, a non-empty one leaves it unchanged. -/
def segFlag (fl : Bool) : List (List Byte) → Bool
  | [] => fl
  | line :: rest => segFlag (if line.isEmpty then true else fl) rest

/-- The bytes the segment loop emits to a fully-accepting sink, for a
writer whose symbol is `c` and depth is `d`. -/
def segBytesT (c : Char) (d : Nat) : List (List Byte) → List Byte
  | [] => []
  | line :: rest =>
    [10] ++ (if line.isEmpty then [] else (List.replicate d (encodeChar c)).flatten ++ line)
      ++ segBytesT c d rest

/-- The bytes a whole `write` call emits to a fully-accepting sink. -/
def writeBytesT (st : IndentState) (s : List Byte) : List Byte :=
  (if st.first_line then indentBytes st else []) ++
    (splitNl s).headI ++ segBytesT st.indent_symbol st.current_indent (splitNl s).tail

/-- `N` successive calls to `more`. -/
def moreIter : Nat → IndentState → IndentState
  | 0, st => st
  | Nat.succ n, st => moreIter n st.more

/-- Joins segments back, putting one newline byte between neighbours. -/
def joinNl : List (List Byte) → List Byte
  | [] => []
  | [s] => s
  | s :: t :: rest => s ++ 10 :: joinNl (t :: rest)

/-- `a` is an initial run of `b`. -/
def IsPre (a b : List Byte) : Prop := ∃ t, a ++ t = b

theorem IsPre.of_append (a t : List Byte) : IsPre a (a ++ t) := ⟨t, rfl⟩

theorem IsPre.refl (a : List Byte) : IsPre a a := ⟨[], by simp⟩

theorem IsPre.trans {a b c : List Byte} (h1 : IsPre a b) (h2 : IsPre b c) : IsPre a c := by
  obtain ⟨t1, rfl⟩ := h1
  obtain ⟨t2, rfl⟩ := h2
  exact ⟨t1 ++ t2, by simp⟩

theorem IsPre.cong_left {a b : List Byte} (c : List Byte) (h : IsPre a b) :
    IsPre (c ++ a) (c ++ b) := by
  obtain ⟨t, rfl⟩ := h
  exact ⟨t, by simp⟩

theorem IsPre.flatten_replicate {k n : Nat} (x : List Byte) (h : k ≤ n) :
    IsPre (List.flatten (List.replicate k x)) (List.flatten (List.replicate n x)) := by
  obtain ⟨m, rfl⟩ := Nat.exists_eq_add_of_le h
  rw [List.replicate_add, List.flatten_append]
  exact IsPre.of_append _ _

theorem totalSink_write (tr bs : List Byte) :
    totalSink.write tr bs = (tr ++ bs, Except.ok bs.length) := rfl

/-- The indent loop against the fully-accepting sink always succeeds and
appends `n` copies of the symbol's encoding. -/
theorem writeIndentLoop_total (c : Char) :
    ∀ (n : Nat) (tr : List Byte),
      writeIndentLoop totalSink c n tr =
        (tr ++ (List.replicate n (encodeChar c)).flatten, Except.ok ()) := by
  intro n
  induction n with
  | zero => intro tr; simp [writeIndentLoop]
  | succ n ih =>
    intro tr
    simp only [writeIndentLoop, totalSink_write, ih, List.replicate_succ]
    simp

/-- The segment loop against the fully-accepting sink: final flag via
`segFlag`, emitted bytes via `segBytesT`, count `printed + segsCost`. -/
theorem writeSegs_total :
    ∀ (segs : List (List Byte)) (st : IndentState) (tr : List Byte) (p : Nat),
      writeSegs totalSink segs st tr p =
        ({ st with first_line := segFlag st.first_line segs },
         tr ++ segBytesT st.indent_symbol st.current_indent segs,
         Except.ok (p + segsCost segs)) := by
  intro segs
  induction segs with
  | nil => intro st tr p; simp [writeSegs, segFlag, segBytesT, segsCost]
  | cons line rest ih =>
    intro st tr p
    by_cases hline : line.isEmpty
    · have hl : line = [] := List.isEmpty_iff.mp hline
      subst hl
      simp only [writeSegs, totalSink_write, List.isEmpty_nil, if_pos, ih]
      simp only [segFlag, segBytesT, segsCost, List.isEmpty_nil, if_pos, List.map_cons,
        List.sum_cons]
      refine congrArg₂ Prod.mk rfl (congrArg₂ Prod.mk ?_ ?_)
      · simp
      · simp
        omega
    · simp only [writeSegs, totalSink_write, hline, Bool.false_eq_true, if_neg,
        writeIndentLoop_total, ih]
      simp only [segFlag, segBytesT, segsCost, hline, Bool.false_eq_true, if_neg,
        List.map_cons, List.sum_cons]
      refine congrArg₂ Prod.mk rfl (congrArg₂ Prod.mk ?_ ?_)
      · simp [List.append_assoc]
      · simp
        omega

theorem splitNl_ne_nil : ∀ s : List Byte, splitNl s ≠ [] := by
  intro s
  cases s with
  | nil => simp [splitNl]
  | cons b rest =>
    by_cases hb : b = 10
    · simp [splitNl, hb]
    · simp only [splitNl, if_neg hb]
      cases splitNl rest <;> simp

/-- The lengths of the segments plus one byte per separator add up to the
input's length. -/
theorem splitNl_cost :
    ∀ (s : List Byte) (f : List Byte) (r : List (List Byte)),
      splitNl s = f :: r → f.length + segsCost r = s.length := by
  intro s
  induction s with
  | nil =>
    intro f r h
    simp [splitNl] at h
    simp [h.1, h.2, segsCost]
  | cons b rest ih =>
    intro f r h
    by_cases hb : b = 10
    · simp only [splitNl, if_pos hb] at h
      cases hrest : splitNl rest with
      | nil => exact absurd hrest (splitNl_ne_nil rest)
      | cons f' r' =>
        rw [hrest] at h
        injection h with h1 h2
        subst h1; subst h2
        have := ih f' r' hrest
        simp only [segsCost, List.map_cons, List.sum_cons, List.length_nil, List.length_cons]
        simp only [segsCost] at this
        omega
    · simp only [splitNl, if_neg hb] at h
      cases hrest : splitNl rest with
      | nil => exact absurd hrest (splitNl_ne_nil rest)
      | cons f' r' =>
        rw [hrest] at h
        injection h with h1 h2
        subst h1; subst h2
        have := ih f' r' hrest
        simp only [List.length_cons]
        omega

/-- Full behaviour of `write` against the fully-accepting sink: the final
flag is determined by the trailing segments, the trace grows by
`writeBytesT`, and the call reports exactly the input's length. -/
theorem write_total_eq (st : IndentState) (tr s : List Byte) :
    Indent.write totalSink st tr s =
      ({ st with first_line := segFlag false (splitNl s).tail },
       tr ++ writeBytesT st s, Except.ok s.length) := by
  obtain ⟨stp, sym, d, fl⟩ := st
  cases hs : splitNl s with
  | nil => exact absurd hs (splitNl_ne_nil s)
  | cons f r =>
    have hcost := splitNl_cost s f r hs
    cases fl with
    | true =>
      simp only [Indent.write, if_pos, writeIndentLoop_total, hs, totalSink_write,
        writeSegs_total]
      simp only [writeBytesT, indentBytes, if_pos, hs, List.headI, List.tail]
      refine congrArg₂ Prod.mk rfl (congrArg₂ Prod.mk ?_ ?_)
      · simp [List.append_assoc]
      · rw [← hcost]
    | false =>
      simp only [Indent.write, Bool.false_eq_true, if_neg, hs, totalSink_write,
        writeSegs_total]
      simp only [writeBytesT, indentBytes, Bool.false_eq_true, if_neg, hs,
        List.headI, List.tail]
      refine congrArg₂ Prod.mk rfl (congrArg₂ Prod.mk ?_ ?_)
      · simp [List.append_assoc]
      · rw [← hcost]

/-- `more` applied `N` times to a fresh state reaches `min (N·step) 255`. -/
theorem moreIter_depth :
    ∀ (N : Nat) (st : IndentState), st.current_indent ≤ 255 →
      (moreIter N st).current_indent = min (st.current_indent + N * st.indent_step) 255 := by
  intro N
  induction N with
  | zero => intro st h; simp [moreIter]; omega
  | succ N ih =>
    intro st h
    rw [moreIter, ih st.more (min_le_right _ _)]
    simp only [IndentState.more]
    rw [Nat.succ_mul]
    generalize N * st.indent_step = m
    omega

theorem splitNl_cons_nl (rest : List Byte) : splitNl (10 :: rest) = [] :: splitNl rest := rfl

theorem splitNl_cons_other (b : Byte) (rest f : List Byte) (r : List (List Byte))
    (hb : b ≠ 10) (h : splitNl rest = f :: r) :
    splitNl (b :: rest) = (b :: f) :: r := by
  simp only [splitNl, if_neg hb, h]

theorem joinNl_splitNl : ∀ s : List Byte, joinNl (splitNl s) = s := by
  intro s
  induction s with
  | nil => rfl
  | cons b rest ih =>
    cases hrest : splitNl rest with
    | nil => exact absurd hrest (splitNl_ne_nil rest)
    | cons f r =>
      rw [hrest] at ih
      by_cases hb : b = 10
      · subst hb
        rw [splitNl_cons_nl, hrest]
        show [] ++ 10 :: joinNl (f :: r) = 10 :: rest
        rw [← ih]
        rfl
      · rw [splitNl_cons_other b rest f r hb hrest]
        cases r with
        | nil =>
          show b :: f = b :: rest
          rw [← ih]
          rfl
        | cons g rs =>
          show (b :: f) ++ 10 :: joinNl (g :: rs) = b :: rest
          rw [← ih]
          rfl

theorem splitNl_no_newline :
    ∀ (s seg : List Byte), seg ∈ splitNl s → (10 : Byte) ∉ seg := by
  intro s
  induction s with
  | nil =>
    intro seg h
    simp [splitNl] at h
    subst h
    simp
  | cons b rest ih =>
    intro seg h
    cases hrest : splitNl rest with
    | nil => exact absurd hrest (splitNl_ne_nil rest)
    | cons f r =>
      by_cases hb : b = 10
      · subst hb
        rw [splitNl_cons_nl, hrest] at h
        rcases List.mem_cons.mp h with h1 | h2
        · subst h1; simp
        · exact ih seg (by rw [hrest]; exact h2)
      · rw [splitNl_cons_other b rest f r hb hrest] at h
        rcases List.mem_cons.mp h with h1 | h2
        · subst h1
          intro hmem
          rcases List.mem_cons.mp hmem with h3 | h4
          · exact hb h3.symm
          · exact ih f (by rw [hrest]; exact List.mem_cons_self f r) h4
        · exact ih seg (by rw [hrest]; exact List.mem_cons_of_mem f h2)

/-- From a line start, writing `"a\r\n\r\nb"` indents the `"a\r"` and the
lone `"\r"` segments: carriage return is ordinary content, so `"\r\n"` is
not a blank line. -/
theorem crlf_example (st : IndentState) (h : st.first_line = true) :
    (runWrite st [97, 13, 10, 13, 10, 98]).2.1 =
      indentBytes st ++ [97, 13] ++ [10] ++ indentBytes st ++ [13] ++ [10]
        ++ indentBytes st ++ [98] ∧
    (runWrite st [97, 13, 10, 13, 10, 98]).2.2 = Except.ok 6 := by
  have hs : splitNl [97, 13, 10, 13, 10, 98] = [[97, 13], [13], [98]] := rfl
  constructor
  · rw [runWrite, write_total_eq]
    simp [writeBytesT, segBytesT, indentBytes, hs, h]
  · rw [runWrite, write_total_eq]
    rfl

set_option maxRecDepth 100000 in
/-- C1: the claimed invariant — `first_line` true exactly when the last
emitted byte was a newline or nothing was emitted — is broken by the code:
after `write("a\n\nb")` on a fresh depth-4 writer the last byte written to
the sink is `b` (98), yet `first_line` is still true (the non-empty branch
of the segment loop never clears it), so a following `write("c")` emits
indentation in the middle of the line. -/
theorem at_line_start_invariant_broken :
    (runWrite ((Indent.new 4 ' ').more) [97, 10, 10, 98]).1.first_line = true ∧
    (runWrite ((Indent.new 4 ' ').more) [97, 10, 10, 98]).2.1 =
      [32, 32, 32, 32, 97, 10, 10, 32, 32, 32, 32, 98] ∧
    (Indent.write totalSink
        (runWrite ((Indent.new 4 ' ').more) [97, 10, 10, 98]).1
        (runWrite ((Indent.new 4 ' ').more) [97, 10, 10, 98]).2.1
        [99]).2.1 =
      [32, 32, 32, 32, 97, 10, 10, 32, 32, 32, 32, 98, 32, 32, 32, 32, 99] := by
  refine ⟨by decide, by decide, by decide⟩

set_option maxRecDepth 100000 in
/-- C2 (counterexample): on a fresh depth-4 writer, whose `first_line` is
true, writing the empty slice emits the four pending indent bytes and
clears the flag — it is not a no-op, though it does return 0. -/
theorem empty_write_not_noop_at_line_start :
    ((Indent.new 4 ' ').more).first_line = true ∧
    (runWrite ((Indent.new 4 ' ').more) []).2.1 = [32, 32, 32, 32] ∧
    (runWrite ((Indent.new 4 ' ').more) []).1 ≠ (Indent.new 4 ' ').more ∧
    (runWrite ((Indent.new 4 ' ').more) []).2.2 = Except.ok 0 := by
  refine ⟨by decide, by decide, by decide, rfl⟩

/-- C2 (amended): writing the empty slice emits no bytes, leaves the
state unchanged and returns 0, provided `first_line` is false; when
`first_line` is true the pending indentation is emitted first. -/
theorem empty_write_noop_midline (st : IndentState) (h : st.first_line = false) :
    runWrite st [] = (st, [], Except.ok 0) := by
  obtain ⟨stp, sym, d, fl⟩ := st
  cases fl with
  | true => exact absurd h (by simp)
  | false =>
    rw [runWrite, write_total_eq]
    have hs : splitNl ([] : List Byte) = [[]] := rfl
    simp [hs, segFlag, writeBytesT, segBytesT]

theorem empty_write_noop_midline_witness :
    runWrite ⟨4, ' ', 4, false⟩ [] = (⟨4, ' ', 4, false⟩, [], Except.ok 0) :=
  empty_write_noop_midline ⟨4, ' ', 4, false⟩ rfl

/-- C3: from a line start with positive depth, one `write("a\n\nb")` call
emits `<indent>a\n\n<indent>b`: the blank line between the two content
lines gets no indentation, and the call reports 4 bytes. -/
theorem blank_line_preserved (st : IndentState)
    (h1 : st.first_line = true) (h2 : 0 < st.current_indent) :
    (runWrite st [97, 10, 10, 98]).2.1 =
      indentBytes st ++ [97] ++ [10, 10] ++ indentBytes st ++ [98] ∧
    (runWrite st [97, 10, 10, 98]).2.2 = Except.ok 4 := by
  have hs : splitNl [97, 10, 10, 98] = [[97], [], [98]] := rfl
  constructor
  · rw [runWrite, write_total_eq]
    simp [writeBytesT, segBytesT, indentBytes, hs, h1]
  · rw [runWrite, write_total_eq]
    rfl

theorem blank_line_preserved_witness :
    (runWrite ⟨4, ' ', 4, true⟩ [97, 10, 10, 98]).2.1 =
      [32, 32, 32, 32, 97, 10, 10, 32, 32, 32, 32, 98] := by
  have h := (blank_line_preserved ⟨4, ' ', 4, true⟩ rfl (by decide)).1
  rw [h]
  decide

/-- C4: against a sink that accepts every byte, `write` always returns the
length of its input — content plus newline bytes, never the indentation
bytes that were also emitted. -/
theorem write_returns_input_length (st : IndentState) (tr s : List Byte) :
    (Indent.write totalSink st tr s).2.2 = Except.ok s.length := by
  rw [write_total_eq]

/-- C5: for every step `s` (a `u8` value) and symbol `c`, a fresh writer
built with `(s, c)`, after one `increase()`, writes `"x"` as exactly `s`
copies of `c` (in UTF-8) followed by `x`, reporting 1 byte. -/
theorem one_increase_then_write (s : Nat) (c : Char) (h : s ≤ 255) :
    (runWrite ((Indent.new s c).more) [120]).2.1 =
      (List.replicate s (encodeChar c)).flatten ++ [120] ∧
    (runWrite ((Indent.new s c).more) [120]).2.2 = Except.ok 1 := by
  have hmin : min s 255 = s := min_eq_left h
  have hs : splitNl [120] = [[120]] := rfl
  constructor
  · rw [runWrite, write_total_eq]
    simp [writeBytesT, segBytesT, indentBytes, Indent.new, IndentState.more, hmin, hs]
  · rw [runWrite, write_total_eq]
    rfl

theorem one_increase_then_write_witness :
    (runWrite ((Indent.new 3 '-').more) [120]).2.1 = [45, 45, 45, 120] := by
  have h := (one_increase_then_write 3 '-' (by decide)).1
  rw [h]
  decide

/-- C6: `increase` sets the depth to `min (depth + step) 255`, and from a
fresh writer, `N` calls with `N·step > 255` leave the depth at exactly
255. -/
theorem increase_saturates :
    (∀ st : IndentState,
      st.more.current_indent = min (st.current_indent + st.indent_step) 255) ∧
    (∀ (s : Nat) (c : Char) (N : Nat), 255 < N * s →
      (moreIter N (Indent.new s c)).current_indent = 255) := by
  constructor
  · intro st; rfl
  · intro s c N h
    rw [moreIter_depth N (Indent.new s c) (by simp [Indent.new])]
    simp only [Indent.new]
    generalize hm : N * s = m
    rw [hm] at h
    omega

theorem increase_saturates_witness :
    (moreIter 64 (Indent.new 4 ' ')).current_indent = 255 :=
  increase_saturates.2 4 ' ' 64 (by decide)

/-- C7: `decrease` sets the depth to `max (depth - step) 0` (computed over
the integers and clamped at 0, i.e. truncated subtraction), and calling it
at depth 0 leaves the depth at 0 — total, no error. -/
theorem decrease_saturates :
    (∀ st : IndentState,
      ((st.less.current_indent : Int)) =
        max ((st.current_indent : Int) - (st.indent_step : Int)) 0) ∧
    (∀ st : IndentState,
      st.less.current_indent = st.current_indent - st.indent_step) ∧
    (∀ st : IndentState, st.current_indent = 0 → st.less.current_indent = 0) := by
  refine ⟨?_, ?_, ?_⟩
  · intro st
    simp only [IndentState.less]
    exact Int.toNat_of_nonneg (le_max_right _ _)
  · intro st
    simp only [IndentState.less]
    omega
  · intro st h
    simp only [IndentState.less, h]
    omega

theorem decrease_saturates_witness :
    (Indent.new 4 ' ').less.current_indent = 0 :=
  decrease_saturates.2.2 (Indent.new 4 ' ') rfl

set_option maxRecDepth 100000 in
/-- C8 (counterexample): with step 4, the 64th `increase()` moves the
depth from 252 to 255 — a change of 3, which is neither 0 nor ±4 nor any
multiple of the step — so the saturating step is not always a multiple of
`step`. -/
theorem depth_change_not_multiple_of_step :
    (moreIter 63 (Indent.new 4 ' ')).current_indent = 252 ∧
    (moreIter 64 (Indent.new 4 ' ')).current_indent = 255 ∧
    255 - 252 = 3 ∧ ¬ ((4 : Nat) ∣ 3) := by
  refine ⟨by decide, by decide, rfl, by decide⟩

/-- C8 (amended): `increase`/`decrease` change the depth by exactly
`step` whenever that stays inside `[0, 255]`, and otherwise clamp to the
boundary with a change of magnitude at most `step`; the depth always stays
in `[0, 255]`. -/
theorem depth_clamped_change_bounded (st : IndentState)
    (hd : st.current_indent ≤ 255) :
    st.more.current_indent ≤ 255 ∧
    st.less.current_indent ≤ 255 ∧
    (st.current_indent + st.indent_step ≤ 255 →
      st.more.current_indent = st.current_indent + st.indent_step) ∧
    (255 < st.current_indent + st.indent_step → st.more.current_indent = 255) ∧
    st.more.current_indent - st.current_indent ≤ st.indent_step ∧
    (st.indent_step ≤ st.current_indent →
      st.less.current_indent = st.current_indent - st.indent_step) ∧
    (st.current_indent < st.indent_step → st.less.current_indent = 0) ∧
    st.current_indent - st.less.current_indent ≤ st.indent_step := by
  obtain ⟨stp, sym, d, fl⟩ := st
  simp [IndentState.more, IndentState.less] at *
  omega

theorem depth_clamped_change_bounded_witness :
    (IndentState.more ⟨4, ' ', 252, true⟩).current_indent = 255 := by
  have h := depth_clamped_change_bounded ⟨4, ' ', 252, true⟩ (by decide)
  exact h.2.2.2.1 (by decide)

/-- C10: only the byte `0x0A` is a line boundary: splitting loses no byte
and no segment contains a newline (so every other byte, `0x0D` included,
stays inside its segment); concretely, from a line start,
`write("a\r\n\r\nb")` keeps each `\r` at the end of its segment and
indents both — `"\r\n"` is not a blank line. -/
theorem newline_is_only_boundary :
    (∀ s : List Byte, joinNl (splitNl s) = s) ∧
    (∀ s seg : List Byte, seg ∈ splitNl s → (10 : Byte) ∉ seg) ∧
    (∀ st : IndentState, st.first_line = true →
      (runWrite st [97, 13, 10, 13, 10, 98]).2.1 =
        indentBytes st ++ [97, 13] ++ [10] ++ indentBytes st ++ [13] ++ [10]
          ++ indentBytes st ++ [98] ∧
      (runWrite st [97, 13, 10, 13, 10, 98]).2.2 = Except.ok 6) :=
  ⟨joinNl_splitNl, splitNl_no_newline, crlf_example⟩

theorem newline_is_only_boundary_witness :
    (runWrite ⟨4, ' ', 2, true⟩ [97, 13, 10, 13, 10, 98]).2.1 =
      [32, 32, 97, 13, 10, 32, 32, 13, 10, 32, 32, 98] := by
  have h := (newline_is_only_boundary.2.2 ⟨4, ' ', 2, true⟩ rfl).1
  rw [h]
  decide

theorem budgetSink_write_zero (ε : Nat) (tr bs : List Byte) :
    (budgetSink ε).write (tr, 0) bs = ((tr, 0), Except.error ε) := rfl

theorem budgetSink_write_succ (ε : Nat) (tr bs : List Byte) (k : Nat) :
    (budgetSink ε).write (tr, k + 1) bs = ((tr ++ bs, k), Except.ok bs.length) := rfl

/-- The indent loop against the failing sink: with enough budget it acts
like the fully-accepting one; otherwise it stops at the failure with
exactly the symbols emitted so far. -/
theorem writeIndentLoop_budget (ε : Nat) (c : Char) :
    ∀ (n : Nat) (tr : List Byte) (k : Nat),
      writeIndentLoop (budgetSink ε) c n (tr, k) =
        if n ≤ k then
          ((tr ++ (List.replicate n (encodeChar c)).flatten, k - n), Except.ok ())
        else
          ((tr ++ (List.replicate k (encodeChar c)).flatten, 0), Except.error ε) := by
  intro n
  induction n with
  | zero =>
    intro tr k
    simp [writeIndentLoop]
  | succ n ih =>
    intro tr k
    cases k with
    | zero =>
      simp only [writeIndentLoop, budgetSink_write_zero]
      simp
    | succ j =>
      simp only [writeIndentLoop, budgetSink_write_succ, ih]
      by_cases hnj : n ≤ j
      · rw [if_pos hnj, if_pos (by omega)]
        simp [List.replicate_succ, List.append_assoc]
      · rw [if_neg hnj, if_neg (by omega)]
        simp [List.replicate_succ, List.append_assoc]

/-- The segment loop against the failing sink: either it completes exactly
as against the fully-accepting sink (with some budget left over), or it
stops at the failure, the sink holding a prefix of the fully-accepting
run's bytes. -/
theorem writeSegs_budget (ε : Nat) :
    ∀ (segs : List (List Byte)) (st : IndentState) (tr : List Byte) (k p : Nat),
      (∃ k', writeSegs (budgetSink ε) segs st (tr, k) p =
          ({ st with first_line := segFlag st.first_line segs },
           (tr ++ segBytesT st.indent_symbol st.current_indent segs, k'),
           Except.ok (p + segsCost segs)))
      ∨ (∃ st' tr', writeSegs (budgetSink ε) segs st (tr, k) p = (st', (tr', 0), Except.error ε)
          ∧ IsPre tr' (tr ++ segBytesT st.indent_symbol st.current_indent segs)) := by
  intro segs
  induction segs with
  | nil =>
    intro st tr k p
    left
    exact ⟨k, by simp [writeSegs, segFlag, segBytesT, segsCost]⟩
  | cons line rest ih =>
    intro st tr k p
    cases k with
    | zero =>
      right
      refine ⟨st, tr, ?_, IsPre.of_append tr _⟩
      simp only [writeSegs, budgetSink_write_zero]
    | succ j =>
      by_cases hline : line.isEmpty
      · have hl : line = [] := List.isEmpty_iff.mp hline
        subst hl
        have hstep : writeSegs (budgetSink ε) ([] :: rest) st (tr, j + 1) p =
            writeSegs (budgetSink ε) rest { st with first_line := true } (tr ++ [10], j)
              (p + 1) := by
          simp [writeSegs, budgetSink_write_succ]
        rcases ih { st with first_line := true } (tr ++ [10]) j (p + 1) with
          ⟨k', hk⟩ | ⟨st', tr', heq, hpre⟩
        · left
          refine ⟨k', ?_⟩
          rw [hstep, hk]
          refine congrArg₂ Prod.mk ?_ (congrArg₂ Prod.mk ?_ ?_)
          · simp [segFlag]
          · simp [segBytesT, List.append_assoc]
          · exact congrArg Except.ok (by simp [segsCost]; omega)
        · right
          refine ⟨st', tr', by rw [hstep, heq], ?_⟩
          obtain ⟨t, ht⟩ := hpre
          exact ⟨t, by rw [ht]; simp [segBytesT, List.append_assoc]⟩
      · by_cases hdj : st.current_indent ≤ j
        · have hind : writeIndentLoop (budgetSink ε) st.indent_symbol st.current_indent
              (tr ++ [10], j) =
              ((tr ++ [10] ++
                  (List.replicate st.current_indent (encodeChar st.indent_symbol)).flatten,
                j - st.current_indent), Except.ok ()) := by
            rw [writeIndentLoop_budget, if_pos hdj]
          cases hjd : j - st.current_indent with
          | zero =>
            have hstep : writeSegs (budgetSink ε) (line :: rest) st (tr, j + 1) p =
                (st, (tr ++ [10] ++
                    (List.replicate st.current_indent (encodeChar st.indent_symbol)).flatten,
                  0), Except.error ε) := by
              simp only [writeSegs, budgetSink_write_succ, if_neg hline, hind, hjd,
                budgetSink_write_zero]
            right
            refine ⟨st, _, hstep, ?_⟩
            exact ⟨line ++ segBytesT st.indent_symbol st.current_indent rest,
              by simp [segBytesT, hline, List.append_assoc]⟩
          | succ m =>
            have hstep : writeSegs (budgetSink ε) (line :: rest) st (tr, j + 1) p =
                writeSegs (budgetSink ε) rest st
                  (tr ++ [10] ++
                      (List.replicate st.current_indent (encodeChar st.indent_symbol)).flatten
                      ++ line, m)
                  (p + 1 + line.length) := by
              simp only [writeSegs, budgetSink_write_succ, if_neg hline, hind, hjd]
              norm_num
            rcases ih st
                (tr ++ [10] ++
                  (List.replicate st.current_indent (encodeChar st.indent_symbol)).flatten
                  ++ line) m (p + 1 + line.length) with
              ⟨k', hk⟩ | ⟨st', tr', heq, hpre⟩
            · left
              refine ⟨k', ?_⟩
              rw [hstep, hk]
              refine congrArg₂ Prod.mk ?_ (congrArg₂ Prod.mk ?_ ?_)
              · simp [segFlag, hline]
              · simp [segBytesT, hline, List.append_assoc]
              · exact congrArg Except.ok (by simp [segsCost]; omega)
            · right
              refine ⟨st', tr', by rw [hstep, heq], ?_⟩
              obtain ⟨t, ht⟩ := hpre
              exact ⟨t, by rw [ht]; simp [segBytesT, hline, List.append_assoc]⟩
        · have hind : writeIndentLoop (budgetSink ε) st.indent_symbol st.current_indent
              (tr ++ [10], j) =
              ((tr ++ [10] ++ (List.replicate j (encodeChar st.indent_symbol)).flatten, 0),
                Except.error ε) := by
            rw [writeIndentLoop_budget, if_neg hdj]
          have hstep : writeSegs (budgetSink ε) (line :: rest) st (tr, j + 1) p =
              (st, (tr ++ [10] ++ (List.replicate j (encodeChar st.indent_symbol)).flatten, 0),
                Except.error ε) := by
            simp only [writeSegs, budgetSink_write_succ, if_neg hline, hind]
          right
          refine ⟨st, _, hstep, ?_⟩
          have h1 : IsPre
              (tr ++ [10] ++ (List.replicate j (encodeChar st.indent_symbol)).flatten)
              (tr ++ [10] ++
                (List.replicate st.current_indent (encodeChar st.indent_symbol)).flatten) :=
            IsPre.cong_left (tr ++ [10])
              (IsPre.flatten_replicate (encodeChar st.indent_symbol) (by omega))
          refine IsPre.trans h1 ?_
          exact ⟨line ++ segBytesT st.indent_symbol st.current_indent rest,
            by simp [segBytesT, hline, List.append_assoc]⟩

/-- C9: against a sink that starts failing after `k` accepted calls
(failing with code `ε` and accepting nothing further), a `write` either
behaves exactly as against the fully-accepting sink — same result, same
bytes, same final writer state — or returns that very error `ε`, the sink
then holding a prefix of the fully-accepting run's bytes: the failure is
surfaced unchanged the moment it occurs, bytes already emitted stay, and
nothing further is emitted.  `flush` forwards the sink's own outcome
unchanged in both directions. -/
theorem sink_failure_propagates :
    (∀ (st : IndentState) (s : List Byte) (k ε : Nat),
      ((Indent.write (budgetSink ε) st ([], k) s).1 = (Indent.write totalSink st [] s).1 ∧
       (Indent.write (budgetSink ε) st ([], k) s).2.1.1 =
         (Indent.write totalSink st [] s).2.1 ∧
       (Indent.write (budgetSink ε) st ([], k) s).2.2 =
         (Indent.write totalSink st [] s).2.2) ∨
      ((Indent.write (budgetSink ε) st ([], k) s).2.2 = Except.error ε ∧
       IsPre (Indent.write (budgetSink ε) st ([], k) s).2.1.1
         (Indent.write totalSink st [] s).2.1)) ∧
    (∀ (tr : List Byte) (ε : Nat),
      Indent.flush (budgetSink ε) (tr, 0) = ((tr, 0), Except.error ε)) ∧
    (∀ (tr : List Byte) (k ε : Nat),
      Indent.flush (budgetSink ε) (tr, k + 1) = ((tr, k), Except.ok ())) := by
  refine ⟨?_, fun tr ε => rfl, fun tr k ε => rfl⟩
  intro st s k ε
  obtain ⟨stp, sym, d, fl⟩ := st
  cases hs : splitNl s with
  | nil => exact absurd hs (splitNl_ne_nil s)
  | cons f r =>
    have hcost := splitNl_cost s f r hs
    rw [write_total_eq]
    cases fl with
    | false =>
      cases k with
      | zero =>
        have hB : Indent.write (budgetSink ε) ⟨stp, sym, d, false⟩ ([], 0) s =
            (⟨stp, sym, d, false⟩, ([], 0), Except.error ε) := by
          simp [Indent.write, hs, budgetSink_write_zero]
        right
        rw [hB]
        exact ⟨rfl, ⟨_, rfl⟩⟩
      | succ j =>
        have hB : Indent.write (budgetSink ε) ⟨stp, sym, d, false⟩ ([], j + 1) s =
            writeSegs (budgetSink ε) r ⟨stp, sym, d, false⟩ (f, j) f.length := by
          simp [Indent.write, hs, budgetSink_write_succ]
        rw [hB]
        rcases writeSegs_budget ε r ⟨stp, sym, d, false⟩ f j f.length with
          ⟨k', hk⟩ | ⟨st', tr', heq, hpre⟩
        · left
          rw [hk]
          refine ⟨?_, ?_, ?_⟩
          · simp [hs, segFlag]
          · simp [writeBytesT, hs, segFlag]
          · simp [hcost]
        · right
          rw [heq]
          refine ⟨rfl, ?_⟩
          obtain ⟨t, ht⟩ := hpre
          exact ⟨t, by rw [ht]; simp [writeBytesT, hs]⟩
    | true =>
      by_cases hdk : d ≤ k
      · have hind : writeIndentLoop (budgetSink ε) sym d (([] : List Byte), k) =
            (((List.replicate d (encodeChar sym)).flatten, k - d), Except.ok ()) := by
          rw [writeIndentLoop_budget, if_pos hdk]
          simp
        cases hkd : k - d with
        | zero =>
          have hB : Indent.write (budgetSink ε) ⟨stp, sym, d, true⟩ ([], k) s =
              (⟨stp, sym, d, false⟩,
               ((List.replicate d (encodeChar sym)).flatten, 0), Except.error ε) := by
            simp [Indent.write, hind, hkd, hs, budgetSink_write_zero]
          right
          rw [hB]
          refine ⟨rfl, ?_⟩
          exact ⟨f ++ segBytesT sym d r,
            by simp [writeBytesT, indentBytes, hs, List.append_assoc]⟩
        | succ m =>
          have hB : Indent.write (budgetSink ε) ⟨stp, sym, d, true⟩ ([], k) s =
              writeSegs (budgetSink ε) r ⟨stp, sym, d, false⟩
                ((List.replicate d (encodeChar sym)).flatten ++ f, m) f.length := by
            simp [Indent.write, hind, hkd, hs, budgetSink_write_succ]
          rw [hB]
          rcases writeSegs_budget ε r ⟨stp, sym, d, false⟩
              ((List.replicate d (encodeChar sym)).flatten ++ f) m f.length with
            ⟨k', hk⟩ | ⟨st', tr', heq, hpre⟩
          · left
            rw [hk]
            refine ⟨?_, ?_, ?_⟩
            · simp [hs, segFlag]
            · simp [writeBytesT, indentBytes, hs, segFlag, List.append_assoc]
            · simp [hcost]
          · right
            rw [heq]
            refine ⟨rfl, ?_⟩
            obtain ⟨t, ht⟩ := hpre
            exact ⟨t, by rw [ht]; simp [writeBytesT, indentBytes, hs, List.append_assoc]⟩
      · have hind : writeIndentLoop (budgetSink ε) sym d (([] : List Byte), k) =
            (((List.replicate k (encodeChar sym)).flatten, 0), Except.error ε) := by
          rw [writeIndentLoop_budget, if_neg hdk]
          simp
        have hB : Indent.write (budgetSink ε) ⟨stp, sym, d, true⟩ ([], k) s =
            (⟨stp, sym, d, true⟩,
             ((List.replicate k (encodeChar sym)).flatten, 0), Except.error ε) := by
          simp [Indent.write, hind]
        right
        rw [hB]
        refine ⟨rfl, ?_⟩
        refine IsPre.trans
          (IsPre.flatten_replicate (encodeChar sym) (by omega : k ≤ d)) ?_
        exact ⟨f ++ segBytesT sym d r,
          by simp [writeBytesT, indentBytes, hs, List.append_assoc]⟩
